import Mathlib

/-!
Verification of the dependency reachability analyzer of ai-observer
(`scripts/analyze-dependencies.py`).

Modelling conventions.
File paths and import targets are Lean strings; character-level work is
done on `List Char`.  Python sets are modelled as `Finset String`; the
worklist queue of `calculate_usage` as a `List String`; the dependency
dictionary `self.dependencies` as an association list
`List (String × List String)` (its keys are unique in the source, one
entry per traced file).  The worklist loop carries explicit fuel and
returns `none` on exhaustion; a sufficient fuel always exists
(`closureLoopF_total`), which models the loop's termination.  The loop
also returns the list of nodes that were actually processed (marked
used), instrumenting the "mark used" step so that "marked exactly once"
is expressible; the source performs `used_files.add(current)` at exactly
that point.

`Path.resolve()` followed by `relative_to(self.root)` is modelled by
segment normalisation (`.` dropped, `..` pops a segment); a candidate
that climbs above the analyser root is treated as unresolvable, as in
the source where `relative_to` raises `ValueError` and the candidate is
skipped.  `str.replace` is modelled exactly (left-to-right,
non-overlapping) for nonempty patterns.  The four import regexes of
`trace_dependencies` are modelled by dedicated matchers with Python
`re` semantics (leftmost match, lazy/greedy backtracking as analysed
for each pattern, `.` not matching newline, `\s` as ASCII whitespace);
`re.findall` is the scanner `scanAll`, which restarts after the end of
each match.  Python's `round(x, 2)` is modelled by exact rational
round-half-even (the claims evaluate it only on exactly representable
values).
-/

namespace AIObserver

/-! ### Character classes (ASCII reading of Python `\s` and the quote class) -/

def isWsChar (c : Char) : Bool :=
  c = ' ' || c = '\t' || c = '\n' || c = '\r' || c = Char.ofNat 11 || c = Char.ofNat 12

def isQuoteChar (c : Char) : Bool :=
  c = Char.ofNat 39 || c = Char.ofNat 34

/-! ### Python `str.replace` (left-to-right, non-overlapping; nonempty pattern)

Source: `resolve_import` line `import_path.replace('./', '').replace('../', '../')`
and `find_entry_points` line `match.group(1).replace('../', '')`.
Fuel is the length of the subject string, which suffices because every
step consumes at least one character. -/

def pyReplaceF (pat rep : List Char) : Nat → List Char → List Char
  | _, [] => []
  | 0, cs => cs
  | f + 1, c :: cs =>
    if pat ≠ [] ∧ pat.isPrefixOf (c :: cs) = true then
      rep ++ pyReplaceF pat rep f ((c :: cs).drop pat.length)
    else
      c :: pyReplaceF pat rep f cs

def pyReplace (s pat rep : String) : String :=
  String.mk (pyReplaceF pat.toList rep.toList s.toList.length s.toList)

/-! ### The four import-extraction regexes of `trace_dependencies`

Pattern shapes (source lines 103, 104, 107, 110):
  1. `import\s+.*?\s+from\s+['"]([^"']+)`   (static named import)
  2. `import\s+['"]([^"']+)`                (bare import)
  3. `require\(['"]([^"']+)`                (CommonJS require)
  4. `import\(['"]([^"']+)`                 (dynamic import)
-/

/-- Matches `['"]([^"']+)` at the head: a quote, then a nonempty greedy
run of non-quote characters (the capture).  Returns the capture and the
rest of the input after the match. -/
def captureTarget : List Char → Option (List Char × List Char)
  | c :: cs =>
    if isQuoteChar c then
      let cap := cs.takeWhile (fun d => !isQuoteChar d)
      if cap.isEmpty then none else some (cap, cs.drop cap.length)
    else none
  | [] => none

/-- Matches `\s+['"]([^"']+)` at the head (the part of pattern 1 after the
literal `from`).  Since a quote is not whitespace, `\s+` here is exactly
"one whitespace char, then skip the whole whitespace run". -/
def afterFromTail : List Char → Option (List Char × List Char)
  | d :: ds => if isWsChar d then captureTarget (List.dropWhile isWsChar ds) else none
  | [] => none

/-- Matches `\s+from\s+['"]([^"']+)` at the head.  `from` starts with a
non-whitespace character, so `\s+` before it is exactly "one whitespace
char, then skip the whole whitespace run". -/
def tryFromTail : List Char → Option (List Char × List Char)
  | c :: cs1 =>
    if isWsChar c then
      let afterWs := List.dropWhile isWsChar cs1
      if "from".toList.isPrefixOf afterWs then afterFromTail (afterWs.drop 4) else none
    else none
  | [] => none

/-- The lazy `.*?\s+from\s+['"]([^"']+)` search: try the tail at the
current position (shortest middle first), else extend the middle by one
character, which must not be a newline (`.` does not match `\n`). -/
def searchMiddle : List Char → Option (List Char × List Char)
  | [] => none
  | c :: cs =>
    match tryFromTail (c :: cs) with
    | some r => some r
    | none => if c = '\n' then none else searchMiddle cs

/-- Pattern 1, `import\s+.*?\s+from\s+['"]([^"']+)`, matched at the head
of the input.  The engine consumes the maximal whitespace run after
`import` first and scans the lazy middle from there; if that fails it
backtracks `\s+`, which can only produce one further candidate: `from`
sitting exactly at the end of a whitespace run of length at least two
(the run is then split between `\s+` and the `\s+` before `from`, with
an empty middle). -/
def mFrom (cs : List Char) : Option (List Char × List Char) :=
  if "import".toList.isPrefixOf cs then
    match cs.drop 6 with
    | c :: rest =>
      if isWsChar c then
        let runRest := List.dropWhile isWsChar rest
        match searchMiddle runRest with
        | some r => some r
        | none =>
          if (rest.head?.elim false isWsChar) && "from".toList.isPrefixOf runRest then
            afterFromTail (runRest.drop 4)
          else none
      else none
    | [] => none
  else none

/-- Pattern 2, `import\s+['"]([^"']+)`, matched at the head. -/
def mBare (cs : List Char) : Option (List Char × List Char) :=
  if "import".toList.isPrefixOf cs then
    match cs.drop 6 with
    | c :: rest => if isWsChar c then captureTarget (List.dropWhile isWsChar rest) else none
    | [] => none
  else none

/-- Pattern 3, `require\(['"]([^"']+)`, matched at the head. -/
def mRequire (cs : List Char) : Option (List Char × List Char) :=
  if "require(".toList.isPrefixOf cs then captureTarget (cs.drop 8) else none

/-- Pattern 4, `import\(['"]([^"']+)`, matched at the head. -/
def mDynamic (cs : List Char) : Option (List Char × List Char) :=
  if "import(".toList.isPrefixOf cs then captureTarget (cs.drop 7) else none

/-- `re.findall`: scan left to right, try the matcher at every position,
and on a match emit the capture and resume after the end of the match.
Fuel is the input length; every matcher used consumes at least one
character on success, so the fuel never runs out. -/
def scanAllF (m : List Char → Option (List Char × List Char)) : Nat → List Char → List (List Char)
  | 0, _ => []
  | _ + 1, [] => []
  | f + 1, c :: cs =>
    match m (c :: cs) with
    | some (cap, rest) => cap :: scanAllF m f rest
    | none => scanAllF m f cs

def scanAll (m : List Char → Option (List Char × List Char)) (cs : List Char) : List (List Char) :=
  scanAllF m cs.length cs

/-- `scanAllF` instrumented with the 0-based position at which each
match starts, for stating in-text order of matches. -/
def scanAllPosF (m : List Char → Option (List Char × List Char)) :
    Nat → Nat → List Char → List (Nat × List Char)
  | 0, _, _ => []
  | _ + 1, _, [] => []
  | f + 1, pos, c :: cs =>
    match m (c :: cs) with
    | some (cap, rest) =>
      (pos, cap) :: scanAllPosF m f (pos + ((c :: cs).length - rest.length)) rest
    | none => scanAllPosF m f (pos + 1) cs

def scanAllPos (m : List Char → Option (List Char × List Char)) (cs : List Char) :
    List (Nat × List Char) :=
  scanAllPosF m cs.length 0 cs

def scanAllPosStr (m : List Char → Option (List Char × List Char)) (s : String) :
    List (Nat × String) :=
  (scanAllPos m s.toList).map (fun p => (p.1, String.mk p.2))

/-- The import extractor of `trace_dependencies` (lines 99-110): the four
`findall` result lists are concatenated in source order (static-from,
then bare imports, then requires, then dynamic imports). -/
def extractImports (content : String) : List String :=
  ((scanAll mFrom content.toList) ++ (scanAll mBare content.toList) ++
      (scanAll mRequire content.toList) ++ (scanAll mDynamic content.toList)).map
    (fun cs => String.mk cs)

/-- `imp.startswith('.')` (line 114). -/
def startsWithDot (s : String) : Bool := ".".toList.isPrefixOf s.toList

def importTargets (content : String) : List String :=
  (extractImports content).filter startsWithDot

/-! ### Path handling for `resolve_import` -/

def splitSegsAux : List Char → List Char → List (List Char)
  | acc, [] => [acc.reverse]
  | acc, c :: cs =>
    if c = '/' then acc.reverse :: splitSegsAux [] cs else splitSegsAux (c :: acc) cs

/-- Split a path string on `/`, dropping empty segments (as `pathlib`
does when parsing a path). -/
def splitSegs (cs : List Char) : List (List Char) :=
  (splitSegsAux [] cs).filter (fun s => !s.isEmpty)

/-- `Path(from_file).parent`, as segments (empty for a bare filename,
which `pathlib` renders as `.` and which joins back to the root). -/
def parentSegs (cs : List Char) : List (List Char) := (splitSegs cs).dropLast

/-- `Path.resolve()` normalisation over segments: `.` is dropped, `..`
pops the previous segment, and popping past the analyser root makes the
candidate unresolvable (`relative_to(self.root)` raises `ValueError`
in the source and the candidate is skipped). -/
def normSegsAux : List (List Char) → List (List Char) → Option (List (List Char))
  | acc, [] => some acc.reverse
  | acc, seg :: rest =>
    if seg = ['.', '.'] then
      match acc with
      | [] => none
      | _ :: acc2 => normSegsAux acc2 rest
    else if seg = ['.'] then normSegsAux acc rest
    else normSegsAux (seg :: acc) rest

/-- `str((self.root / from_dir / candidate).resolve().relative_to(self.root))`. -/
def resolveCandidate (fromDir : List (List Char)) (target : List Char) : Option (List Char) :=
  (normSegsAux [] (fromDir ++ splitSegs target)).map (List.intercalate ['/'])

/-- Line 126: `import_path.replace('./', '').replace('../', '../')`. -/
def cleanImport (s : String) : String := pyReplace (pyReplace s "./" "") "../" "../"

/-- The relative path the source compares against `self.all_files` for a
given extension candidate, if it resolves under the root. -/
def candidateAt (fromDir : List (List Char)) (cleaned ext : String) : Option String :=
  (resolveCandidate fromDir (cleaned ++ ext).toList).map String.mk

/-- Line 129: the fixed extension/index candidate order. -/
def extList : List String := ["", ".ts", ".js", ".tsx", ".jsx", "/index.ts", "/index.js"]

/-- The `for ext in [...]` loop of `resolve_import` (lines 129-137):
first candidate that resolves and is a member of the file universe. -/
def resolveExtLoop (all_files : List String) (fromDir : List (List Char)) (cleaned : String) :
    List String → Option String
  | [] => none
  | ext :: rest =>
    match candidateAt fromDir cleaned ext with
    | some rel =>
      if rel ∈ all_files then some rel else resolveExtLoop all_files fromDir cleaned rest
    | none => resolveExtLoop all_files fromDir cleaned rest

/-- `DependencyAnalyzer.resolve_import` (lines 121-138). -/
def resolve_import (all_files : List String) (from_file import_path : String) : Option String :=
  resolveExtLoop all_files (parentSegs from_file.toList) (cleanImport import_path) extList

/-- The edges `trace_dependencies` records for one file (lines 112-119):
extracted targets starting with `.`, resolved; unresolved ones dropped. -/
def fileEdges (all_files : List String) (f : String) (content : String) : List String :=
  (importTargets content).filterMap (fun imp => resolve_import all_files f imp)

/-- `self.dependencies` after `trace_dependencies`, for the files paired
with their text contents. -/
def buildDeps (all_files : List String) (withContent : List (String × String)) :
    List (String × List String) :=
  withContent.map (fun p => (p.1, fileEdges all_files p.1 p.2))

/-! ### Entry points from `bin` scripts (`find_entry_points`, lines 74-87) -/

def containsSeq (pat : List Char) : List Char → Bool
  | [] => pat.isEmpty
  | c :: cs => pat.isPrefixOf (c :: cs) || containsSeq pat cs

/-- `'node' in first_line or 'tsx' in first_line` (line 83). -/
def runnerShebang (first : String) : Bool :=
  containsSeq "node".toList first.toList || containsSeq "tsx".toList first.toList

/-- `re.search(r'require\([\'"]([^"\']+)', line)`: the first match of the
require pattern on one line. -/
def firstRequireOnLine (line : String) : Option String :=
  ((scanAll mRequire line.toList).head?).map String.mk

/-- Lines 80-87: after the shebang check, EVERY remaining line is
scanned, and each line's first `require(...)` target is added (with all
occurrences of `../` removed).  The file is given as its list of lines. -/
def shebangRequireEntries (fileLines : List String) : List String :=
  match fileLines with
  | [] => []
  | first :: rest =>
    if runnerShebang first then
      rest.filterMap (fun l => (firstRequireOnLine l).map (fun t => pyReplace t "../" ""))
    else []

/-! ### The worklist closure (`calculate_usage`, lines 157-183) -/

/-- `self.dependencies.get(current, [])` over the association list. -/
def depsGet : List (String × List String) → String → List String
  | [], _ => []
  | p :: rest, k => if p.1 = k then p.2 else depsGet rest k

/-- Zero or more import edges. -/
def Reaches (deps : List (String × List String)) (a b : String) : Prop :=
  Relation.ReflTransGen (fun x y => y ∈ depsGet deps x) a b

/-- The worklist loop (lines 163-174): pop from the front; skip if
processed; otherwise mark processed and used and push the unprocessed
dependencies.  The returned list records the nodes in the order they
were marked used.  Fuel counts pops; `none` means fuel ran out. -/
def closureLoopF (deps : List (String × List String)) :
    Nat → List String → Finset String → Finset String → List String →
    Option (Finset String × List String)
  | _, [], _, used, tr => some (used, tr)
  | 0, _ :: _, _, _, _ => none
  | fuel + 1, current :: rest, processed, used, tr =>
    if current ∈ processed then
      closureLoopF deps fuel rest processed used tr
    else
      closureLoopF deps fuel
        (rest ++ (depsGet deps current).filter (fun d => decide (d ∉ insert current processed)))
        (insert current processed) (insert current used) (tr ++ [current])

/-- Lines 177-183: normalisation applied to a component-map KEY before
it is added to the used set. -/
def normalizeComponentKey (s : String) : String :=
  let s1 := if "./".toList.isPrefixOf s.toList then String.mk (s.toList.drop 2) else s
  if "src/".toList.isPrefixOf s1.toList then s1 else "src/dashboard/" ++ s1

def componentKeysN (comp : List (String × String)) : Finset String :=
  (comp.map (fun p => normalizeComponentKey p.1)).toFinset

/-- The `for comp_file in self.component_map.keys()` loop (lines 176-183). -/
def addComponents (used : Finset String) (comp : List (String × String)) : Finset String :=
  comp.foldl (fun u p => insert (normalizeComponentKey p.1) u) used

/-- `DependencyAnalyzer.calculate_usage`: worklist closure from the entry
points, then the component-map additions. -/
def calculate_usage (deps : List (String × List String)) (entry_points : List String)
    (comp : List (String × String)) (fuel : Nat) : Option (Finset String) :=
  match closureLoopF deps fuel entry_points ∅ ∅ [] with
  | none => none
  | some (used, _) => some (addComponents used comp)

/-- An upper bound on the number of dependencies any single node can
push (the longest value list in the dependency dictionary). -/
def depsD (deps : List (String × List String)) : Nat :=
  (deps.map (fun p => p.2.length)).foldr Nat.max 0

/-- Every string that can ever be pushed by the loop: the union of all
dependency value lists. -/
def depsTargets (deps : List (String × List String)) : Finset String :=
  (deps.foldr (fun p acc => p.2 ++ acc) []).toFinset

/-! ### Report generation (`generate_report`, lines 185-203) -/

/-- Round-half-even to an integer, Python's rounding mode. -/
def roundHalfEven (q : ℚ) : ℤ :=
  let n : ℤ := Int.fdiv q.num (q.den : ℤ)
  let r : ℚ := q - (n : ℚ)
  if r < 1 / 2 then n else if 1 / 2 < r then n + 1 else if n % 2 = 0 then n else n + 1

/-- `round(x, 2)` on an exact rational. -/
def pyRound2 (q : ℚ) : ℚ := ((roundHalfEven (q * 100) : ℤ) : ℚ) / 100

structure Summary where
  total_files : Nat
  used_files : Nat
  unused_files : Nat
  usage_percentage : ℚ
deriving DecidableEq

structure Report where
  summary : Summary
  unused_files : Finset String
deriving DecidableEq

/-- `generate_report` restricted to the fields the properties are about:
the summary block and the unused-file set (the source additionally
sorts `unused_files` into a list and emits entry points, core flows and
recommendations). -/
def generate_report (all_files used : Finset String) : Report :=
  let unused := all_files \ used
  { summary :=
      { total_files := all_files.card
        used_files := used.card
        unused_files := unused.card
        usage_percentage :=
          if all_files = ∅ then 0
          else pyRound2 (((used.card : ℚ) / (all_files.card : ℚ)) * 100) }
    unused_files := unused }

end AIObserver

/-! ## Lemmas about the scanners and matchers -/

namespace AIObserver

theorem dropWhile_length_le (p : Char → Bool) :
    ∀ l : List Char, (List.dropWhile p l).length ≤ l.length := by
  intro l
  induction l with
  | nil => simp [List.dropWhile]
  | cons c cs ih =>
    simp only [List.dropWhile]
    cases hp : p c
    · simp
    · simp only [List.length_cons]
      omega

theorem scanAllPosF_map_snd (m : List Char → Option (List Char × List Char)) :
    ∀ fuel pos cs, (scanAllPosF m fuel pos cs).map Prod.snd = scanAllF m fuel cs := by
  intro fuel
  induction fuel with
  | zero => intro pos cs; simp [scanAllPosF, scanAllF]
  | succ f ih =>
    intro pos cs
    cases cs with
    | nil => simp [scanAllPosF, scanAllF]
    | cons c cs =>
      simp only [scanAllPosF, scanAllF]
      cases h : m (c :: cs) with
      | none => simpa using ih _ cs
      | some r => obtain ⟨cap, rest⟩ := r; simp [ih]

theorem scanAllPosF_pos_le (m : List Char → Option (List Char × List Char)) :
    ∀ fuel pos cs q, q ∈ scanAllPosF m fuel pos cs → pos ≤ q.1 := by
  intro fuel
  induction fuel with
  | zero => intro pos cs q hq; simp [scanAllPosF] at hq
  | succ f ih =>
    intro pos cs q hq
    cases cs with
    | nil => simp [scanAllPosF] at hq
    | cons c cs =>
      simp only [scanAllPosF] at hq
      cases h : m (c :: cs) with
      | none =>
        rw [h] at hq
        have := ih _ _ _ hq
        omega
      | some r =>
        obtain ⟨cap, rest⟩ := r
        rw [h] at hq
        rcases List.mem_cons.mp hq with rfl | hq2
        · exact le_refl _
        · have := ih _ _ _ hq2
          omega

theorem scanAllPosF_chain (m : List Char → Option (List Char × List Char))
    (hm : ∀ cs cap rest, m cs = some (cap, rest) → rest.length < cs.length) :
    ∀ fuel pos cs, List.Chain' (fun a b => a.1 < b.1) (scanAllPosF m fuel pos cs) := by
  intro fuel
  induction fuel with
  | zero => intro pos cs; simp [scanAllPosF]
  | succ f ih =>
    intro pos cs
    cases cs with
    | nil => simp [scanAllPosF]
    | cons c cs =>
      simp only [scanAllPosF]
      cases h : m (c :: cs) with
      | none => exact ih _ cs
      | some r =>
        obtain ⟨cap, rest⟩ := r
        refine List.chain'_cons'.mpr ⟨?_, ih _ rest⟩
        intro y hy
        have hmem : y ∈ scanAllPosF m f (pos + ((c :: cs).length - rest.length)) rest :=
          List.mem_of_mem_head? hy
        have h1 := scanAllPosF_pos_le m f _ rest y hmem
        have h2 := hm _ _ _ h
        simp only [List.length_cons] at h1 h2 ⊢
        omega

theorem captureTarget_lt :
    ∀ cs cap rest, captureTarget cs = some (cap, rest) → rest.length < cs.length := by
  intro cs cap rest h
  cases cs with
  | nil => simp [captureTarget] at h
  | cons c cs =>
    simp only [captureTarget] at h
    split at h
    · split at h
      · simp at h
      · obtain ⟨h1, h2⟩ := Prod.mk.injEq .. ▸ Option.some.injEq .. ▸ h
        subst h2
        simp [List.length_drop]
        omega
    · simp at h

theorem afterFromTail_lt :
    ∀ cs cap rest, afterFromTail cs = some (cap, rest) → rest.length < cs.length := by
  intro cs cap rest h
  cases cs with
  | nil => simp [afterFromTail] at h
  | cons d ds =>
    simp only [afterFromTail] at h
    split at h
    · have h1 := captureTarget_lt _ _ _ h
      have h2 := dropWhile_length_le isWsChar ds
      simp only [List.length_cons]
      omega
    · simp at h

theorem tryFromTail_lt :
    ∀ cs cap rest, tryFromTail cs = some (cap, rest) → rest.length < cs.length := by
  intro cs cap rest h
  cases cs with
  | nil => simp [tryFromTail] at h
  | cons c cs1 =>
    simp only [tryFromTail] at h
    split at h
    · split at h
      · have h1 := afterFromTail_lt _ _ _ h
        have h2 : ((List.dropWhile isWsChar cs1).drop 4).length ≤
            (List.dropWhile isWsChar cs1).length := by
          simp [List.length_drop]
        have h3 := dropWhile_length_le isWsChar cs1
        simp only [List.length_cons]
        omega
      · simp at h
    · simp at h

theorem searchMiddle_le :
    ∀ cs cap rest, searchMiddle cs = some (cap, rest) → rest.length ≤ cs.length := by
  intro cs
  induction cs with
  | nil => intro cap rest h; simp [searchMiddle] at h
  | cons c cs ih =>
    intro cap rest h
    simp only [searchMiddle] at h
    cases ht : tryFromTail (c :: cs) with
    | some r =>
      simp only [ht] at h
      have h2 : r = (cap, rest) := Option.some.inj h
      subst h2
      exact le_of_lt (tryFromTail_lt _ _ _ ht)
    | none =>
      simp only [ht] at h
      split at h
      · simp at h
      · have := ih _ _ h
        simp only [List.length_cons]
        omega

end AIObserver

namespace AIObserver

theorem mFrom_lt :
    ∀ cs cap rest, mFrom cs = some (cap, rest) → rest.length < cs.length := by
  intro cs cap rest h
  cases hdrop : cs.drop 6 with
  | nil =>
    simp only [mFrom, hdrop] at h
    split at h <;> simp at h
  | cons c rest1 =>
    simp only [mFrom, hdrop] at h
    have hlen : (cs.drop 6).length = cs.length - 6 := List.length_drop 6 cs
    rw [hdrop] at hlen
    simp only [List.length_cons] at hlen
    split at h
    · split at h
      · have hdw := dropWhile_length_le isWsChar rest1
        cases hsm : searchMiddle (List.dropWhile isWsChar rest1) with
        | some r =>
          simp only [hsm] at h
          have h2 : r = (cap, rest) := Option.some.inj h
          subst h2
          have h3 := searchMiddle_le _ _ _ hsm
          omega
        | none =>
          simp only [hsm] at h
          split at h
          · have h3 := afterFromTail_lt _ _ _ h
            have h4 : ((List.dropWhile isWsChar rest1).drop 4).length ≤
                (List.dropWhile isWsChar rest1).length := by
              simp [List.length_drop]
            have hdw := dropWhile_length_le isWsChar rest1
            omega
          · simp at h
      · simp at h
    · simp at h

theorem mBare_lt :
    ∀ cs cap rest, mBare cs = some (cap, rest) → rest.length < cs.length := by
  intro cs cap rest h
  cases hdrop : cs.drop 6 with
  | nil =>
    simp only [mBare, hdrop] at h
    split at h <;> simp at h
  | cons c rest1 =>
    simp only [mBare, hdrop] at h
    have hlen : (cs.drop 6).length = cs.length - 6 := List.length_drop 6 cs
    rw [hdrop] at hlen
    simp only [List.length_cons] at hlen
    split at h
    · split at h
      · have h3 := captureTarget_lt _ _ _ h
        have hdw := dropWhile_length_le isWsChar rest1
        omega
      · simp at h
    · simp at h

theorem mRequire_lt :
    ∀ cs cap rest, mRequire cs = some (cap, rest) → rest.length < cs.length := by
  intro cs cap rest h
  simp only [mRequire] at h
  split at h
  · have h3 := captureTarget_lt _ _ _ h
    have hlen : (cs.drop 8).length = cs.length - 8 := List.length_drop 8 cs
    omega
  · simp at h

theorem mDynamic_lt :
    ∀ cs cap rest, mDynamic cs = some (cap, rest) → rest.length < cs.length := by
  intro cs cap rest h
  simp only [mDynamic] at h
  split at h
  · have h3 := captureTarget_lt _ _ _ h
    have hlen : (cs.drop 7).length = cs.length - 7 := List.length_drop 7 cs
    omega
  · simp at h

/-- The extension loop of `resolve_import` is first-match-wins over the
resolvable candidates, in the order of the extension list. -/
theorem resolveExtLoop_eq_find (af : List String) (d : List (List Char)) (c : String) :
    ∀ exts, resolveExtLoop af d c exts =
      (exts.filterMap (candidateAt d c)).find? (fun r => decide (r ∈ af)) := by
  intro exts
  induction exts with
  | nil => simp [resolveExtLoop]
  | cons e rest ih =>
    simp only [resolveExtLoop, List.filterMap_cons]
    cases h : candidateAt d c e with
    | none => exact ih
    | some rel =>
      rw [List.find?_cons]
      by_cases hrel : rel ∈ af <;> simp [hrel, ih]

end AIObserver

namespace AIObserver

theorem closureLoopF_used_mono (deps : List (String × List String)) :
    ∀ fuel queue p u tr u2 tr2,
      closureLoopF deps fuel queue p u tr = some (u2, tr2) → u ⊆ u2 := by
  intro fuel
  induction fuel with
  | zero =>
    intro queue p u tr u2 tr2 h
    cases queue with
    | nil =>
      simp only [closureLoopF] at h
      obtain ⟨h1, h2⟩ := Prod.mk.injEq .. ▸ Option.some.inj h
      subst h1
      exact Finset.Subset.refl _
    | cons a l => simp [closureLoopF] at h
  | succ f ih =>
    intro queue p u tr u2 tr2 h
    cases queue with
    | nil =>
      simp only [closureLoopF] at h
      obtain ⟨h1, h2⟩ := Prod.mk.injEq .. ▸ Option.some.inj h
      subst h1
      exact Finset.Subset.refl _
    | cons current rest =>
      simp only [closureLoopF] at h
      split at h
      · exact ih _ _ _ _ _ _ h
      · exact (Finset.subset_insert _ _).trans (ih _ _ _ _ _ _ h)

theorem closureLoopF_queue_mem (deps : List (String × List String)) :
    ∀ fuel queue p u tr u2 tr2,
      closureLoopF deps fuel queue p u tr = some (u2, tr2) → p = u →
      ∀ x ∈ queue, x ∈ u2 := by
  intro fuel
  induction fuel with
  | zero =>
    intro queue p u tr u2 tr2 h hpu x hx
    cases queue with
    | nil => simp at hx
    | cons a l => simp [closureLoopF] at h
  | succ f ih =>
    intro queue p u tr u2 tr2 h hpu x hx
    cases queue with
    | nil => simp at hx
    | cons current rest =>
      simp only [closureLoopF] at h
      split at h
      case isTrue hmem =>
        rcases List.mem_cons.mp hx with rfl | hx2
        · exact closureLoopF_used_mono deps _ _ _ _ _ _ _ h (hpu ▸ hmem)
        · exact ih _ _ _ _ _ _ h hpu x hx2
      case isFalse hmem =>
        rcases List.mem_cons.mp hx with rfl | hx2
        · exact closureLoopF_used_mono deps _ _ _ _ _ _ _ h (Finset.mem_insert_self _ _)
        · exact ih _ _ _ _ _ _ h (by rw [hpu]) x (List.mem_append_left _ hx2)

theorem closureLoopF_sound (deps : List (String × List String)) :
    ∀ fuel queue p u tr u2 tr2,
      closureLoopF deps fuel queue p u tr = some (u2, tr2) →
      ∀ x ∈ u2, x ∈ u ∨ ∃ s ∈ queue, Reaches deps s x := by
  intro fuel
  induction fuel with
  | zero =>
    intro queue p u tr u2 tr2 h x hx
    cases queue with
    | nil =>
      simp only [closureLoopF] at h
      obtain ⟨h1, h2⟩ := Prod.mk.injEq .. ▸ Option.some.inj h
      subst h1
      exact Or.inl hx
    | cons a l => simp [closureLoopF] at h
  | succ f ih =>
    intro queue p u tr u2 tr2 h x hx
    cases queue with
    | nil =>
      simp only [closureLoopF] at h
      obtain ⟨h1, h2⟩ := Prod.mk.injEq .. ▸ Option.some.inj h
      subst h1
      exact Or.inl hx
    | cons current rest =>
      simp only [closureLoopF] at h
      split at h
      case isTrue hmem =>
        rcases ih _ _ _ _ _ _ h x hx with hu | ⟨s, hs, hr⟩
        · exact Or.inl hu
        · exact Or.inr ⟨s, List.mem_cons_of_mem _ hs, hr⟩
      case isFalse hmem =>
        rcases ih _ _ _ _ _ _ h x hx with hu | ⟨s, hs, hr⟩
        · rcases Finset.mem_insert.mp hu with rfl | hu2
          · exact Or.inr ⟨x, List.mem_cons_self _ _, Relation.ReflTransGen.refl⟩
          · exact Or.inl hu2
        · rcases List.mem_append.mp hs with hs2 | hs2
          · exact Or.inr ⟨s, List.mem_cons_of_mem _ hs2, hr⟩
          · have hsd : s ∈ depsGet deps current := (List.mem_filter.mp hs2).1
            exact Or.inr ⟨current, List.mem_cons_self _ _, Relation.ReflTransGen.head hsd hr⟩

theorem closureLoopF_closed (deps : List (String × List String)) :
    ∀ fuel queue p u tr u2 tr2,
      closureLoopF deps fuel queue p u tr = some (u2, tr2) → p = u →
      (∀ a ∈ p, ∀ b ∈ depsGet deps a, b ∈ p ∨ b ∈ queue) →
      ∀ a ∈ u2, ∀ b ∈ depsGet deps a, b ∈ u2 := by
  intro fuel
  induction fuel with
  | zero =>
    intro queue p u tr u2 tr2 h hpu hInv a ha b hb
    cases queue with
    | nil =>
      simp only [closureLoopF] at h
      obtain ⟨h1, h2⟩ := Prod.mk.injEq .. ▸ Option.some.inj h
      subst h1
      subst hpu
      rcases hInv a ha b hb with hbp | hbq
      · exact hbp
      · simp at hbq
    | cons x l => simp [closureLoopF] at h
  | succ f ih =>
    intro queue p u tr u2 tr2 h hpu hInv a ha b hb
    cases queue with
    | nil =>
      simp only [closureLoopF] at h
      obtain ⟨h1, h2⟩ := Prod.mk.injEq .. ▸ Option.some.inj h
      subst h1
      subst hpu
      rcases hInv a ha b hb with hbp | hbq
      · exact hbp
      · simp at hbq
    | cons current rest =>
      simp only [closureLoopF] at h
      split at h
      case isTrue hmem =>
        refine ih _ _ _ _ _ _ h hpu ?_ a ha b hb
        intro a2 ha2 b2 hb2
        rcases hInv a2 ha2 b2 hb2 with hbp | hbq
        · exact Or.inl hbp
        · rcases List.mem_cons.mp hbq with rfl | hbr
          · exact Or.inl hmem
          · exact Or.inr hbr
      case isFalse hmem =>
        refine ih _ _ _ _ _ _ h (by rw [hpu]) ?_ a ha b hb
        intro a2 ha2 b2 hb2
        rcases Finset.mem_insert.mp ha2 with rfl | ha3
        · by_cases hbp : b2 ∈ insert a2 p
          · exact Or.inl hbp
          · refine Or.inr (List.mem_append_right _ ?_)
            exact List.mem_filter.mpr ⟨hb2, by simpa using hbp⟩
        · rcases hInv a2 ha3 b2 hb2 with hbp | hbq
          · exact Or.inl (Finset.mem_insert_of_mem hbp)
          · rcases List.mem_cons.mp hbq with rfl | hbr
            · exact Or.inl (Finset.mem_insert_self _ _)
            · exact Or.inr (List.mem_append_left _ hbr)

/-- The worklist result is exactly the set of files reachable from some
entry point by zero or more recorded import edges. -/
theorem closureLoopF_mem_iff (deps : List (String × List String)) (fuel : Nat)
    (entries : List String) (u2 : Finset String) (tr2 : List String)
    (h : closureLoopF deps fuel entries ∅ ∅ [] = some (u2, tr2)) (x : String) :
    x ∈ u2 ↔ ∃ e ∈ entries, Reaches deps e x := by
  constructor
  · intro hx
    rcases closureLoopF_sound deps fuel entries ∅ ∅ [] u2 tr2 h x hx with h0 | hr
    · simp at h0
    · exact hr
  · rintro ⟨e, he, hre⟩
    unfold Reaches at hre
    induction hre with
    | refl => exact closureLoopF_queue_mem deps fuel entries ∅ ∅ [] u2 tr2 h rfl e he
    | tail h1 h2 ih2 =>
      exact closureLoopF_closed deps fuel entries ∅ ∅ [] u2 tr2 h rfl (by simp) _ ih2 _ h2

end AIObserver

namespace AIObserver

theorem depsGet_sub_targets :
    ∀ (deps : List (String × List String)) k b, b ∈ depsGet deps k → b ∈ depsTargets deps := by
  intro deps
  induction deps with
  | nil => intro k b hb; simp [depsGet] at hb
  | cons p rest ih =>
    intro k b hb
    simp only [depsGet] at hb
    simp only [depsTargets, List.foldr_cons, List.mem_toFinset, List.mem_append]
    split at hb
    · exact Or.inl hb
    · have hr := ih k b hb
      simp only [depsTargets, List.mem_toFinset] at hr
      exact Or.inr hr

theorem depsGet_len_le :
    ∀ (deps : List (String × List String)) k, (depsGet deps k).length ≤ depsD deps := by
  intro deps
  induction deps with
  | nil => intro k; simp [depsGet, depsD]
  | cons p rest ih =>
    intro k
    simp only [depsGet, depsD, List.map_cons, List.foldr_cons]
    split
    · exact Nat.le_max_left _ _
    · exact le_trans (ih k) (Nat.le_max_right _ _)

theorem closureLoopF_isSome (deps : List (String × List String)) (cands : Finset String)
    (D : Nat) (hd : ∀ k, ∀ b ∈ depsGet deps k, b ∈ cands)
    (hD : ∀ k, (depsGet deps k).length ≤ D) :
    ∀ fuel queue p u tr,
      (∀ x ∈ queue, x ∈ cands) →
      (cands \ p).card * (D + 1) + queue.length ≤ fuel →
      (closureLoopF deps fuel queue p u tr).isSome = true := by
  intro fuel
  induction fuel with
  | zero =>
    intro queue p u tr hq hf
    cases queue with
    | nil => simp [closureLoopF]
    | cons a l => simp [List.length_cons] at hf
  | succ f ih =>
    intro queue p u tr hq hf
    cases queue with
    | nil => simp [closureLoopF]
    | cons current rest =>
      simp only [closureLoopF]
      split
      case isTrue hmem =>
        refine ih rest p u tr (fun x hx => hq x (List.mem_cons_of_mem _ hx)) ?_
        simp only [List.length_cons] at hf
        omega
      case isFalse hmem =>
        have hc : current ∈ cands \ p :=
          Finset.mem_sdiff.mpr ⟨hq current (List.mem_cons_self _ _), hmem⟩
        have hsd : cands \ insert current p = (cands \ p).erase current := by
          ext y
          simp only [Finset.mem_sdiff, Finset.mem_insert, Finset.mem_erase]
          tauto
        have hcard : ((cands \ p).erase current).card + 1 = (cands \ p).card :=
          Finset.card_erase_add_one hc
        have hflt : ((depsGet deps current).filter
            (fun d => decide (d ∉ insert current p))).length ≤ D :=
          le_trans (List.length_filter_le _ _) (hD current)
        refine ih _ _ _ _ ?_ ?_
        · intro x hx
          rcases List.mem_append.mp hx with hx2 | hx2
          · exact hq x (List.mem_cons_of_mem _ hx2)
          · exact hd current x (List.mem_filter.mp hx2).1
        · rw [hsd]
          rw [← hcard] at hf
          rw [Nat.succ_mul] at hf
          simp only [List.length_append, List.length_cons] at hf ⊢
          set X := ((cands \ p).erase current).card * (D + 1) with hX
          omega

/-- For every dependency dictionary and entry list there is enough fuel
for the worklist loop to finish: the loop always terminates. -/
theorem closureLoopF_total (deps : List (String × List String)) (entries : List String) :
    ∃ fuel, (closureLoopF deps fuel entries ∅ ∅ []).isSome = true := by
  refine ⟨((entries.toFinset ∪ depsTargets deps) \ ∅).card * (depsD deps + 1) +
    entries.length, ?_⟩
  apply closureLoopF_isSome deps (entries.toFinset ∪ depsTargets deps) (depsD deps)
  · intro k b hb
    exact Finset.mem_union_right _ (depsGet_sub_targets deps k b hb)
  · intro k
    exact depsGet_len_le deps k
  · intro x hx
    exact Finset.mem_union_left _ (List.mem_toFinset.mpr hx)
  · exact le_refl _

theorem addComponents_mem :
    ∀ (comp : List (String × String)) (used : Finset String) (x : String),
      x ∈ addComponents used comp ↔
        x ∈ used ∨ ∃ p ∈ comp, x = normalizeComponentKey p.1 := by
  intro comp
  induction comp with
  | nil => intro used x; simp [addComponents]
  | cons q rest ih =>
    intro used x
    have hstep : addComponents used (q :: rest) =
        addComponents (insert (normalizeComponentKey q.1) used) rest := rfl
    rw [hstep, ih]
    constructor
    · rintro (h | ⟨p, hp, hxe⟩)
      · rcases Finset.mem_insert.mp h with h1 | h1
        · exact Or.inr ⟨q, List.mem_cons_self _ _, h1⟩
        · exact Or.inl h1
      · exact Or.inr ⟨p, List.mem_cons_of_mem _ hp, hxe⟩
    · rintro (h | ⟨p, hp, hxe⟩)
      · exact Or.inl (Finset.mem_insert_of_mem h)
      · rcases List.mem_cons.mp hp with rfl | hp2
        · exact Or.inl (hxe ▸ Finset.mem_insert_self _ _)
        · exact Or.inr ⟨p, hp2, hxe⟩

theorem addComponents_eq_union (used : Finset String) (comp : List (String × String)) :
    addComponents used comp = used ∪ componentKeysN comp := by
  ext x
  rw [addComponents_mem]
  simp only [Finset.mem_union, componentKeysN, List.mem_toFinset, List.mem_map]
  constructor
  · rintro (h | ⟨p, hp, rfl⟩)
    · exact Or.inl h
    · exact Or.inr ⟨p, hp, rfl⟩
  · rintro (h | ⟨p, hp, rfl⟩)
    · exact Or.inl h
    · exact Or.inr ⟨p, hp, rfl⟩

/-- Membership in the used set produced by `calculate_usage`: reachable
from an entry point, or seeded by a (normalised) component-map key. -/
theorem calculate_usage_mem_iff (deps : List (String × List String)) (entries : List String)
    (comp : List (String × String)) (fuel : Nat) (U : Finset String)
    (h : calculate_usage deps entries comp fuel = some U) (x : String) :
    x ∈ U ↔ (∃ e ∈ entries, Reaches deps e x) ∨ ∃ p ∈ comp, x = normalizeComponentKey p.1 := by
  unfold calculate_usage at h
  cases hl : closureLoopF deps fuel entries ∅ ∅ [] with
  | none => rw [hl] at h; simp at h
  | some r =>
    rw [hl] at h
    obtain ⟨w, tr⟩ := r
    simp only [Option.some.injEq] at h
    subst h
    rw [addComponents_mem]
    rw [closureLoopF_mem_iff deps fuel entries w tr hl x]

theorem reaches_congr (d1 d2 : List (String × List String))
    (h : ∀ k x, x ∈ depsGet d1 k ↔ x ∈ depsGet d2 k) (a b : String) :
    Reaches d1 a b ↔ Reaches d2 a b := by
  constructor
  · intro hr
    unfold Reaches at hr ⊢
    induction hr with
    | refl => exact Relation.ReflTransGen.refl
    | tail h1 h2 ih => exact Relation.ReflTransGen.tail ih ((h _ _).mp h2)
  · intro hr
    unfold Reaches at hr ⊢
    induction hr with
    | refl => exact Relation.ReflTransGen.refl
    | tail h1 h2 ih => exact Relation.ReflTransGen.tail ih ((h _ _).mpr h2)

end AIObserver

/-! ## The claims -/

namespace AIObserver

/-- Claim C2 (confirmed): for every declaring file and raw relative
target, `resolve_import` tries the candidate paths in the fixed order
(the cleaned target path bare, then with each of the extensions
`.ts .js .tsx .jsx` appended, then `/index.ts` and `/index.js`) and
returns the first candidate present in the known file universe; in
particular, for target "./foo" with both foo.ts and foo/index.ts in the
universe, it returns foo.ts. -/
theorem c2_resolution_order :
    (∀ (af : List String) (d t : String),
      resolve_import af d t =
        (extList.filterMap (candidateAt (parentSegs d.toList) (cleanImport t))).find?
          (fun r => decide (r ∈ af))) ∧
    extList = ["", ".ts", ".js", ".tsx", ".jsx", "/index.ts", "/index.js"] ∧
    resolve_import ["src/foo.ts", "src/foo/index.ts"] "src/a.ts" "./foo" = some "src/foo.ts" := by
  refine ⟨?_, rfl, by decide⟩
  intro af d t
  exact resolveExtLoop_eq_find af (parentSegs d.toList) (cleanImport t) extList

/-- Claim C3 (code bug): src/a/b.ts imports "../utils" and src/utils.ts
is in the universe; interpreting the target relative to the declaring
directory under the fixed candidate order yields the member src/utils.ts
(extension ".ts"), yet the tracer records no edge: `resolve_import`
first mangles "../utils" into ".utils", because `replace('./', '')`
also eats the "./" inside "../" (the adjacent no-op
`replace('../', '../')` shows "../" was meant to be preserved). -/
theorem c3_parent_import_dropped :
    cleanImport "../utils" = ".utils" ∧
    candidateAt (parentSegs "src/a/b.ts".toList) "../utils" ".ts" = some "src/utils.ts" ∧
    ".ts" ∈ extList ∧
    "src/utils.ts" ∈ ["src/a/b.ts", "src/utils.ts"] ∧
    importTargets "import u from \"../utils\";\n" = ["../utils"] ∧
    resolve_import ["src/a/b.ts", "src/utils.ts"] "src/a/b.ts" "../utils" = none ∧
    buildDeps ["src/a/b.ts", "src/utils.ts"] [("src/a/b.ts", "import u from \"../utils\";\n")]
      = [("src/a/b.ts", [])] := by
  decide

/-- Claim C5 (confirmed): the worklist closure terminates for every
finite dependency dictionary and entry list (a sufficient fuel always
exists), and on the two-node cycle a.ts ↔ b.ts with entry a.ts it
finishes with both files in the used set, each marked used exactly once
(the processing trace contains each exactly once). -/
theorem c5_termination_cycle :
    (∀ (deps : List (String × List String)) (entries : List String),
      ∃ fuel, (closureLoopF deps fuel entries ∅ ∅ []).isSome = true) ∧
    closureLoopF [("a.ts", ["b.ts"]), ("b.ts", ["a.ts"])] 5 ["a.ts"] ∅ ∅ []
      = some ({"b.ts", "a.ts"}, ["a.ts", "b.ts"]) ∧
    "a.ts" ∈ ({"b.ts", "a.ts"} : Finset String) ∧
    "b.ts" ∈ ({"b.ts", "a.ts"} : Finset String) ∧
    ["a.ts", "b.ts"].count "a.ts" = 1 ∧
    ["a.ts", "b.ts"].count "b.ts" = 1 :=
  ⟨closureLoopF_total, rfl, by decide, by decide, by decide, by decide⟩

/-- Claim C8 (confirmed): with an empty collected file universe the
report is still produced (the percentage division is guarded by the
emptiness check) and the usage percentage is zero. -/
theorem c8_empty_universe (used : Finset String) :
    (generate_report ∅ used).summary.usage_percentage = 0 ∧
    (generate_report ∅ used).summary.total_files = 0 ∧
    (generate_report ∅ used).unused_files = ∅ := by
  refine ⟨?_, ?_, ?_⟩ <;> simp [generate_report]

/-- Claim C6 (counterexample): in the text below the require target
"./a" is matched at position 10 and the bare-import target "./b" at
position 26 — "./a" appears first — yet extraction returns
["./b", "./a"]: the output is grouped by pattern shape, not ordered by
first appearance in the text. -/
theorem c6_counterexample :
    extractImports "const a = require(\"./a\");\nimport \"./b\";" = ["./b", "./a"] ∧
    scanAllPosStr mRequire "const a = require(\"./a\");\nimport \"./b\";" = [(10, "./a")] ∧
    scanAllPosStr mBare "const a = require(\"./a\");\nimport \"./b\";" = [(26, "./b")] ∧
    scanAllPosStr mFrom "const a = require(\"./a\");\nimport \"./b\";" = [] ∧
    scanAllPosStr mDynamic "const a = require(\"./a\");\nimport \"./b\";" = [] ∧
    10 < 26 := by
  decide

/-- Claim C6 (corrected): for every file text the extractor produces the
raw import targets grouped by syntactic shape in the fixed source order
— static-from imports, then bare imports, then requires, then dynamic
ones — with each group listed in strictly increasing order of match
position in the text (duplicates allowed). -/
theorem c6_amended (content : String) :
    extractImports content =
      (scanAllPosStr mFrom content).map Prod.snd ++
        (scanAllPosStr mBare content).map Prod.snd ++
        (scanAllPosStr mRequire content).map Prod.snd ++
        (scanAllPosStr mDynamic content).map Prod.snd ∧
    List.Chain' (fun a b => a.1 < b.1) (scanAllPosStr mFrom content) ∧
    List.Chain' (fun a b => a.1 < b.1) (scanAllPosStr mBare content) ∧
    List.Chain' (fun a b => a.1 < b.1) (scanAllPosStr mRequire content) ∧
    List.Chain' (fun a b => a.1 < b.1) (scanAllPosStr mDynamic content) := by
  have key : ∀ m, (scanAllPosStr m content).map Prod.snd =
      (scanAll m content.toList).map (fun cs => String.mk cs) := by
    intro m
    unfold scanAllPosStr scanAllPos scanAll
    rw [List.map_map, ← scanAllPosF_map_snd m content.toList.length 0 content.toList,
      List.map_map]
    rfl
  have chain : ∀ m, (∀ cs cap rest, m cs = some (cap, rest) → rest.length < cs.length) →
      List.Chain' (fun a b : Nat × String => a.1 < b.1) (scanAllPosStr m content) := by
    intro m hm
    unfold scanAllPosStr scanAllPos
    rw [List.chain'_map]
    exact scanAllPosF_chain m hm _ _ _
  refine ⟨?_, chain mFrom mFrom_lt, chain mBare mBare_lt,
    chain mRequire mRequire_lt, chain mDynamic mDynamic_lt⟩
  unfold extractImports
  rw [key, key, key, key]
  simp [List.map_append]

/-- Claim C7 (counterexample): a bin file whose shebang references node
and whose remainder has require targets "../src/a" and then "../src/b"
on later lines yields BOTH entries — the later require target is added
too, refuting "later require targets in the same file are not added". -/
theorem c7_counterexample :
    shebangRequireEntries ["#!/usr/bin/env node",
        "const a = require(\"../src/a\");", "const b = require(\"../src/b\");"]
      = ["src/a", "src/b"] ∧
    "src/b" ∈ shebangRequireEntries ["#!/usr/bin/env node",
        "const a = require(\"../src/a\");", "const b = require(\"../src/b\");"] := by
  decide

/-- Claim C7 (corrected): when the first line of a bin file mentions a
script runner, then for EVERY later line, the first require(...) target
of that line — with every "../" occurrence removed — is added as an
entry point (the loop has no break; only within a single line is just
the first match taken). -/
theorem c7_amended (first : String) (rest : List String) (l t : String)
    (hsb : runnerShebang first = true) (hl : l ∈ rest)
    (ht : firstRequireOnLine l = some t) :
    pyReplace t "../" "" ∈ shebangRequireEntries (first :: rest) := by
  simp only [shebangRequireEntries]
  rw [if_pos hsb]
  refine List.mem_filterMap.mpr ⟨l, hl, ?_⟩
  rw [ht]
  rfl

/-- Witness for C7: the amended statement applied to a concrete bin
file with shebang "#!/usr/bin/env node" and one require line. -/
theorem c7_amended_witness :
    pyReplace "../src/core" "../" "" ∈ shebangRequireEntries
      ["#!/usr/bin/env node", "const a = require(\"../src/core\");"] :=
  c7_amended "#!/usr/bin/env node" ["const a = require(\"../src/core\");"]
    "const a = require(\"../src/core\");" "../src/core" (by decide) (by decide) (by decide)

/-- Claim C4 (counterexample): with no entry points and the component
map ("comp-view.ts" ↦ "src/dashboard/server.ts"), the used set contains
exactly the normalised KEY "src/dashboard/comp-view.ts"; the VALUE path
"src/dashboard/server.ts" is NOT in the used set, refuting "the
Component Map's value paths are unioned into the used set". -/
theorem c4_counterexample :
    calculate_usage [] [] [("comp-view.ts", "src/dashboard/server.ts")] 1
      = some {"src/dashboard/comp-view.ts"} ∧
    "src/dashboard/server.ts" ∉ ({"src/dashboard/comp-view.ts"} : Finset String) ∧
    "src/dashboard/comp-view.ts" ∈ ({"src/dashboard/comp-view.ts"} : Finset String) :=
  ⟨rfl, by decide, by decide⟩

/-- Claim C4 (corrected): after the closure completes, the component
map's KEY strings, normalised (leading "./" stripped; prefixed with
"src/dashboard/" unless they already start with "src/"), are unioned
into the used set directly, without taking part in the traversal. -/
theorem c4_amended (deps : List (String × List String)) (entries : List String)
    (comp : List (String × String)) (fuel : Nat) (U : Finset String)
    (h : calculate_usage deps entries comp fuel = some U) :
    ∃ w tr, closureLoopF deps fuel entries ∅ ∅ [] = some (w, tr) ∧
      U = w ∪ componentKeysN comp := by
  unfold calculate_usage at h
  cases hl : closureLoopF deps fuel entries ∅ ∅ [] with
  | none => rw [hl] at h; simp at h
  | some r =>
    rw [hl] at h
    obtain ⟨w, tr⟩ := r
    simp only [Option.some.injEq] at h
    exact ⟨w, tr, rfl, h.symm.trans (addComponents_eq_union w comp)⟩

/-- Witness for C4: the amended statement applied to the concrete
counterexample state. -/
theorem c4_amended_witness :
    ∃ w tr, closureLoopF [] 1 [] ∅ ∅ [] = some (w, tr) ∧
      ({"src/dashboard/comp-view.ts"} : Finset String) =
        w ∪ componentKeysN [("comp-view.ts", "src/dashboard/server.ts")] :=
  c4_amended [] [] [("comp-view.ts", "src/dashboard/server.ts")] 1
    {"src/dashboard/comp-view.ts"} rfl

/-- Claim C1 (counterexample): src/dashboard/comp-view.ts is in the file
universe and has no path from any entry point (there are none), but it
is seeded used through the component-map key, so it is NOT in the
report's unused_files — refuting "every member of all_files with no path
from any entry point is a member of unused_files". -/
theorem c1_counterexample :
    calculate_usage [] [] [("comp-view.ts", "src/dashboard/server.ts")] 1
      = some {"src/dashboard/comp-view.ts"} ∧
    "src/dashboard/comp-view.ts" ∈ ({"src/dashboard/comp-view.ts"} : Finset String) ∧
    (¬ ∃ e ∈ ([] : List String), Reaches [] e "src/dashboard/comp-view.ts") ∧
    "src/dashboard/comp-view.ts" ∉
      (generate_report {"src/dashboard/comp-view.ts"}
        {"src/dashboard/comp-view.ts"}).unused_files :=
  ⟨rfl, by decide, by simp, by decide⟩

/-- Claim C1 (corrected): every file reachable from some entry point by
zero or more resolved import edges is in the used set; and every member
of all_files that has no path from any entry point AND is not seeded by
a normalised component-map key is in the report's unused_files. -/
theorem c1_amended (deps : List (String × List String)) (entries : List String)
    (comp : List (String × String)) (af : Finset String) (fuel : Nat) (U : Finset String)
    (h : calculate_usage deps entries comp fuel = some U) :
    (∀ x, (∃ e ∈ entries, Reaches deps e x) → x ∈ U) ∧
    (∀ g ∈ af, (¬ ∃ e ∈ entries, Reaches deps e g) →
      (¬ ∃ p ∈ comp, g = normalizeComponentKey p.1) →
      g ∈ (generate_report af U).unused_files) := by
  constructor
  · intro x hx
    exact (calculate_usage_mem_iff deps entries comp fuel U h x).mpr (Or.inl hx)
  · intro g hg hnr hnc
    have hgu : g ∉ U := by
      intro hgu
      rcases (calculate_usage_mem_iff deps entries comp fuel U h g).mp hgu with h1 | h1
      · exact hnr h1
      · exact hnc h1
    have hrep : (generate_report af U).unused_files = af \ U := rfl
    rw [hrep]
    exact Finset.mem_sdiff.mpr ⟨hg, hgu⟩

/-- Witness for C1: on a universe {entry, lib, orphan} where the entry
file imports lib, the amended statement puts lib in used and orphan
in unused_files. -/
theorem c1_amended_witness :
    "src/lib.ts" ∈ ({"src/lib.ts", "src/entry.ts"} : Finset String) ∧
    "src/orphan.ts" ∈ (generate_report {"src/entry.ts", "src/lib.ts", "src/orphan.ts"}
      {"src/lib.ts", "src/entry.ts"}).unused_files := by
  have h := c1_amended [("src/entry.ts", ["src/lib.ts"])] ["src/entry.ts"] []
    {"src/entry.ts", "src/lib.ts", "src/orphan.ts"} 5 {"src/lib.ts", "src/entry.ts"} rfl
  constructor
  · exact h.1 "src/lib.ts"
      ⟨"src/entry.ts", by decide, Relation.ReflTransGen.single (by decide)⟩
  · refine h.2 "src/orphan.ts" (by decide) ?_ (by simp)
    have hloop : closureLoopF [("src/entry.ts", ["src/lib.ts"])] 5 ["src/entry.ts"] ∅ ∅ []
        = some ({"src/lib.ts", "src/entry.ts"}, ["src/entry.ts", "src/lib.ts"]) := rfl
    have hiff := closureLoopF_mem_iff _ 5 _ _ _ hloop "src/orphan.ts"
    intro hex
    have hmem : "src/orphan.ts" ∈ ({"src/lib.ts", "src/entry.ts"} : Finset String) :=
      hiff.mpr hex
    exact absurd hmem (by decide)

/-- Claim C9 (confirmed): the analysis is deterministic and insensitive
to processing order: two runs over the same inputs — same entry-point
set and same per-file dependency sets, in any list order and with any
sufficient fuel — produce the same used set and therefore an equal
report (equal unused_files and equal summary). -/
theorem c9_deterministic (af : Finset String) (comp : List (String × String))
    (d1 d2 : List (String × List String)) (e1 e2 : List String)
    (f1 f2 : Nat) (u1 u2 : Finset String)
    (he : ∀ x, x ∈ e1 ↔ x ∈ e2)
    (hd : ∀ k x, x ∈ depsGet d1 k ↔ x ∈ depsGet d2 k)
    (h1 : calculate_usage d1 e1 comp f1 = some u1)
    (h2 : calculate_usage d2 e2 comp f2 = some u2) :
    u1 = u2 ∧ generate_report af u1 = generate_report af u2 := by
  have huu : u1 = u2 := by
    ext x
    rw [calculate_usage_mem_iff d1 e1 comp f1 u1 h1 x,
      calculate_usage_mem_iff d2 e2 comp f2 u2 h2 x]
    constructor
    · rintro (⟨e, hee, hre⟩ | hc)
      · exact Or.inl ⟨e, (he e).mp hee, (reaches_congr d1 d2 hd e x).mp hre⟩
      · exact Or.inr hc
    · rintro (⟨e, hee, hre⟩ | hc)
      · exact Or.inl ⟨e, (he e).mpr hee, (reaches_congr d1 d2 hd e x).mpr hre⟩
      · exact Or.inr hc
  exact ⟨huu, by rw [huu]⟩

/-- Witness for C9: two runs with permuted entry lists, permuted
dependency value lists and different fuels produce the same used set
and the same report. -/
theorem c9_deterministic_witness :
    ({"src/dashboard/panel-view.ts", "src/c.ts", "src/b.ts", "src/a.ts"} : Finset String)
      = {"src/dashboard/panel-view.ts", "src/c.ts", "src/a.ts", "src/b.ts"} ∧
    generate_report {"src/a.ts"}
        {"src/dashboard/panel-view.ts", "src/c.ts", "src/b.ts", "src/a.ts"}
      = generate_report {"src/a.ts"}
        {"src/dashboard/panel-view.ts", "src/c.ts", "src/a.ts", "src/b.ts"} := by
  refine c9_deterministic {"src/a.ts"} [("panel-view.ts", "src/dashboard/server.ts")]
    [("src/a.ts", ["src/c.ts", "src/b.ts"])] [("src/a.ts", ["src/b.ts", "src/c.ts"])]
    ["src/a.ts", "src/b.ts"] ["src/b.ts", "src/a.ts"] 4 9 _ _ ?_ ?_ rfl rfl
  · intro x
    simp only [List.mem_cons, List.not_mem_nil, or_false]
    tauto
  · intro k x
    by_cases hk : k = "src/a.ts"
    · subst hk
      have hd1 : depsGet [("src/a.ts", ["src/c.ts", "src/b.ts"])] "src/a.ts"
          = ["src/c.ts", "src/b.ts"] := rfl
      have hd2 : depsGet [("src/a.ts", ["src/b.ts", "src/c.ts"])] "src/a.ts"
          = ["src/b.ts", "src/c.ts"] := rfl
      rw [hd1, hd2]
      simp only [List.mem_cons, List.not_mem_nil, or_false]
      tauto
    · simp only [depsGet]
      rw [if_neg (fun hc => hk hc.symm), if_neg (fun hc => hk hc.symm)]

/-- Claim C10 (confirmed): after usage calculation every entry point is
in the used set, whether or not it belongs to all_files (bin/ files are
never collected); consequently the summary's used_files count can
exceed total_files and usage_percentage can exceed 100. -/
theorem c10_entry_points_used :
    (∀ (deps : List (String × List String)) (entries : List String)
        (comp : List (String × String)) (fuel : Nat) (U : Finset String),
      calculate_usage deps entries comp fuel = some U → ∀ e ∈ entries, e ∈ U) ∧
    calculate_usage [] ["bin/observe", "src/a.ts"] [] 3 = some {"src/a.ts", "bin/observe"} ∧
    "bin/observe" ∉ ({"src/a.ts"} : Finset String) ∧
    "bin/observe" ∈ ({"src/a.ts", "bin/observe"} : Finset String) ∧
    (generate_report {"src/a.ts"} {"src/a.ts", "bin/observe"}).summary.total_files = 1 ∧
    (generate_report {"src/a.ts"} {"src/a.ts", "bin/observe"}).summary.used_files = 2 ∧
    100 < (generate_report {"src/a.ts"} {"src/a.ts", "bin/observe"}).summary.usage_percentage := by
  refine ⟨?_, rfl, by decide, by decide, by decide, by decide, ?_⟩
  · intro deps entries comp fuel U h e he
    exact (calculate_usage_mem_iff deps entries comp fuel U h e).mpr
      (Or.inl ⟨e, he, Relation.ReflTransGen.refl⟩)
  · have h1 : ({"src/a.ts", "bin/observe"} : Finset String).card = 2 := by decide
    simp only [generate_report, h1, Finset.singleton_ne_empty, if_neg, Finset.card_singleton]
    norm_num [pyRound2, roundHalfEven]

/-- Witness for C10: the universal part applied to the concrete run
whose entry bin/observe is outside the single-file universe. -/
theorem c10_entry_points_used_witness :
    "bin/observe" ∈ ({"src/a.ts", "bin/observe"} : Finset String) :=
  c10_entry_points_used.1 [] ["bin/observe", "src/a.ts"] [] 3 {"src/a.ts", "bin/observe"}
    rfl "bin/observe" (by decide)

end AIObserver
